import Mathlib

/-!
Shallow embedding of the `scripts/acl2-encoding` toolset:

* `scan-non-ascii.py`    — Scanner   (`scan_file`)
* `fix-comment-encoding.py` — Converter (`process_file` with its line/comment
  classifier state machine)
* `verify-encoding.py`   — Verifier  (`verify_file`, exit code of `main`)

Files are byte strings, modelled as `List Nat` (each entry a byte value
0..255; theorems that need the bound carry it as a hypothesis).  Python
`str` values produced by `bytes.decode('iso-8859-1')` are modelled as lists
of Unicode code points (`List Nat`); for ISO-8859-1 the code point equals
the byte value.
-/

namespace Pup

/-! ## UTF-8 validity (model of Python `bytes.decode('utf-8')` succeeding)

Python's decoder is strict UTF-8 (RFC 3629): it rejects stray continuation
bytes, overlong forms, surrogates U+D800..U+DFFF and code points above
U+10FFFF.  We model decode-success as a byte-level DFA. -/

inductive U8 where
  /-- at a code-point boundary -/
  | st
  /-- one continuation byte 0x80..0xBF still expected -/
  | c1
  /-- two continuation bytes still expected (generic ranges) -/
  | c2
  /-- three continuation bytes still expected (generic ranges) -/
  | c3
  /-- just after lead 0xE0: next byte must be 0xA0..0xBF -/
  | e0
  /-- just after lead 0xED: next byte must be 0x80..0x9F (no surrogates) -/
  | ed
  /-- just after lead 0xF0: next byte must be 0x90..0xBF -/
  | f0
  /-- just after lead 0xF4: next byte must be 0x80..0x8F (≤ U+10FFFF) -/
  | f4
deriving DecidableEq

def utf8Step (s : U8) (b : Nat) : Option U8 :=
  match s with
  | .st =>
    if b ≤ 0x7F then some .st
    else if 0xC2 ≤ b ∧ b ≤ 0xDF then some .c1
    else if b = 0xE0 then some .e0
    else if (0xE1 ≤ b ∧ b ≤ 0xEC) ∨ b = 0xEE ∨ b = 0xEF then some .c2
    else if b = 0xED then some .ed
    else if b = 0xF0 then some .f0
    else if 0xF1 ≤ b ∧ b ≤ 0xF3 then some .c3
    else if b = 0xF4 then some .f4
    else none
  | .c1 => if 0x80 ≤ b ∧ b ≤ 0xBF then some .st else none
  | .c2 => if 0x80 ≤ b ∧ b ≤ 0xBF then some .c1 else none
  | .c3 => if 0x80 ≤ b ∧ b ≤ 0xBF then some .c2 else none
  | .e0 => if 0xA0 ≤ b ∧ b ≤ 0xBF then some .c1 else none
  | .ed => if 0x80 ≤ b ∧ b ≤ 0x9F then some .c1 else none
  | .f0 => if 0x90 ≤ b ∧ b ≤ 0xBF then some .c2 else none
  | .f4 => if 0x80 ≤ b ∧ b ≤ 0x8F then some .c2 else none

def utf8ValidFrom (s : U8) : List Nat → Bool
  | [] => s == .st
  | b :: rest =>
    match utf8Step s b with
    | some s' => utf8ValidFrom s' rest
    | none => false

/-- `fix-comment-encoding.py` line 38, `is_valid_utf8`:
`data.decode('utf-8')` succeeds. -/
def is_valid_utf8 (data : List Nat) : Bool := utf8ValidFrom U8.st data

/-- Python `chr(b).encode('utf-8')` for a code point (used at
`fix-comment-encoding.py` line 107 with 0x80 ≤ b ≤ 0xFF, where it yields
the two-byte form). -/
def utf8EncodeCp (c : Nat) : List Nat :=
  if c ≤ 0x7F then [c]
  else if c ≤ 0x7FF then [0xC0 + c / 64, 0x80 + c % 64]
  else if c ≤ 0xFFFF then [0xE0 + c / 4096, 0x80 + c / 64 % 64, 0x80 + c % 64]
  else [0xF0 + c / 262144, 0x80 + c / 4096 % 64, 0x80 + c / 64 % 64, 0x80 + c % 64]

/-- Decode a single UTF-8-encoded code point from the front of a byte list
(strict, mirroring Python `bytes.decode('utf-8')` on one scalar): returns
the code point and the remaining bytes. -/
def utf8DecodeOne : List Nat → Option (Nat × List Nat)
  | [] => none
  | b :: rest =>
    if b ≤ 0x7F then some (b, rest)
    else if 0xC2 ≤ b ∧ b ≤ 0xDF then
      match rest with
      | b2 :: r =>
        if 0x80 ≤ b2 ∧ b2 ≤ 0xBF then some ((b - 0xC0) * 64 + (b2 - 0x80), r)
        else none
      | [] => none
    else if 0xE0 ≤ b ∧ b ≤ 0xEF then
      match rest with
      | b2 :: b3 :: r =>
        if (if b = 0xE0 then 0xA0 ≤ b2 ∧ b2 ≤ 0xBF
            else if b = 0xED then 0x80 ≤ b2 ∧ b2 ≤ 0x9F
            else 0x80 ≤ b2 ∧ b2 ≤ 0xBF) ∧ 0x80 ≤ b3 ∧ b3 ≤ 0xBF then
          some ((b - 0xE0) * 4096 + (b2 - 0x80) * 64 + (b3 - 0x80), r)
        else none
      | _ => none
    else if 0xF0 ≤ b ∧ b ≤ 0xF4 then
      match rest with
      | b2 :: b3 :: b4 :: r =>
        if (if b = 0xF0 then 0x90 ≤ b2 ∧ b2 ≤ 0xBF
            else if b = 0xF4 then 0x80 ≤ b2 ∧ b2 ≤ 0x8F
            else 0x80 ≤ b2 ∧ b2 ≤ 0xBF) ∧ 0x80 ≤ b3 ∧ b3 ≤ 0xBF ∧
            0x80 ≤ b4 ∧ b4 ≤ 0xBF then
          some ((b - 0xF0) * 262144 + (b2 - 0x80) * 4096 + (b3 - 0x80) * 64
                 + (b4 - 0x80), r)
        else none
      | _ => none
    else none

/-- The ISO-8859-1 single-byte encoding of a code point: defined (and equal
to the code point itself) exactly for code points U+0000..U+00FF. -/
def latin1EncodeCp (c : Nat) : Option Nat := if c ≤ 0xFF then some c else none

/-- Python `chr(b)` at `fix-comment-encoding.py` line 104: the ISO-8859-1
byte-to-code-point map (the identity on 0..255). -/
def iso_char (b : Nat) : Nat := b

/-! ## Lines: `data.split(b'\n')` and `b'\n'.join(...)` -/

def splitNl : List Nat → List (List Nat)
  | [] => [[]]
  | b :: rest =>
    if b = 10 then [] :: splitNl rest
    else
      match splitNl rest with
      | l :: ls => (b :: l) :: ls
      | [] => [[b]]

def joinNl : List (List Nat) → List Nat
  | [] => []
  | [l] => l
  | l :: ls => l ++ 10 :: joinNl ls

/-! ## Python `str.strip()` on ISO-8859-1-decoded text

Whitespace code points in U+0000..U+00FF for Python `str.strip`:
9..13, 28..31, 32, 133 (NEL), 160 (NBSP). -/

def isWsCp (c : Nat) : Bool :=
  (9 ≤ c ∧ c ≤ 13) ∨ (28 ≤ c ∧ c ≤ 32) ∨ c = 133 ∨ c = 160

def stripWs (l : List Nat) : List Nat :=
  ((l.dropWhile isWsCp).reverse.dropWhile isWsCp).reverse

/-! ## Converter: `fix-comment-encoding.py`, `process_file` -/

/-- Per-line classifier state of the loop at lines 75-129: `in_block_comment`
(the only variable living outside the per-line loop), `in_line_comment`,
`in_string`, `escape_next`, `prev_byte`. -/
structure LState where
  inBlock : Bool
  inLine : Bool
  inString : Bool
  escapeNext : Bool
  prevByte : Nat
deriving DecidableEq

/-- State update for one ASCII byte (`b <= 127` branch, lines 83-101). -/
def stepAscii (s : LState) (b : Nat) : LState :=
  if s.escapeNext then { s with escapeNext := false, prevByte := b }
  else if s.inBlock then
    if s.prevByte = 124 ∧ b = 35 then { s with inBlock := false, prevByte := b }
    else { s with prevByte := b }
  else if s.inLine then { s with prevByte := b }
  else if b = 92 ∧ s.inString then { s with escapeNext := true, prevByte := b }
  else if b = 34 ∧ ¬ s.inLine then { s with inString := ! s.inString, prevByte := b }
  else if b = 59 ∧ ¬ s.inString then { s with inLine := true, prevByte := b }
  else if s.prevByte = 35 ∧ b = 124 ∧ ¬ s.inString then
    { s with inBlock := true, prevByte := b }
  else { s with prevByte := b }

/-- State update for one byte: ASCII bytes run the transition chain; a
non-ASCII byte (lines 102-129) only records itself as `prev_byte`. -/
def stepByte (s : LState) (b : Nat) : LState :=
  if b ≤ 127 then stepAscii s b else { s with prevByte := b }

/-- The classifier state after running a whole byte list. -/
def lineRun (s : LState) (l : List Nat) : LState := l.foldl stepByte s

/-- The classifier state at the start of each line (line 75-80): only
`in_block_comment` survives from the previous line. -/
def mkLineState (blk : Bool) : LState := ⟨blk, false, false, false, 0⟩

/-- A change record (lines 109-114); `charCp` is the code point of
`chr(byte)`. -/
structure Change where
  line : Nat
  col : Nat
  byte : Nat
  charCp : Nat
deriving DecidableEq

/-- A warning record (lines 121-128); `reason` is the fixed string
`non-ASCII in code (not in comment)` and is omitted. -/
structure Warning where
  line : Nat
  col : Nat
  byte : Nat
  charCp : Nat
  context : List Nat
deriving DecidableEq

/-- Warning context (lines 118-120): strip the ISO-8859-1-decoded line,
truncate to 80 code points plus `...` (code points 46,46,46). -/
def mkWarnContext (line : List Nat) : List Nat :=
  let c := stripWs line
  if 80 < c.length then c.take 80 ++ [46, 46, 46] else c

structure LineOut where
  state : LState
  newLine : List Nat
  changes : List Change
  warnings : List Warning
deriving DecidableEq

/-- The inner byte loop (lines 82-129): `orig` is the whole original line
(used for warning context), `col` the 0-based position of the next byte. -/
def procLineGo (lineNo : Nat) (orig : List Nat) : Nat → LState → List Nat → LineOut
  | _, s, [] => ⟨s, [], [], []⟩
  | col, s, b :: rest =>
    if b ≤ 127 then
      let r := procLineGo lineNo orig (col + 1) (stepByte s b) rest
      ⟨r.state, b :: r.newLine, r.changes, r.warnings⟩
    else if s.inLine || s.inBlock then
      let r := procLineGo lineNo orig (col + 1) (stepByte s b) rest
      ⟨r.state, utf8EncodeCp (iso_char b) ++ r.newLine,
        ⟨lineNo, col + 1, b, iso_char b⟩ :: r.changes, r.warnings⟩
    else
      let r := procLineGo lineNo orig (col + 1) (stepByte s b) rest
      ⟨r.state, b :: r.newLine, r.changes,
        ⟨lineNo, col + 1, b, iso_char b, mkWarnContext orig⟩ :: r.warnings⟩

/-- One iteration of the line loop (lines 75-131). -/
def procLine (lineNo : Nat) (blk : Bool) (l : List Nat) : LineOut :=
  procLineGo lineNo l 0 (mkLineState blk) l

structure LinesOut where
  blk : Bool
  newLines : List (List Nat)
  changes : List Change
  warnings : List Warning
deriving DecidableEq

/-- The line loop: `lineNo` is the 1-based number of the first line
(`enumerate(lines, 1)`), `blk` the carried `in_block_comment` flag. -/
def procLines (lineNo : Nat) (blk : Bool) : List (List Nat) → LinesOut
  | [] => ⟨blk, [], [], []⟩
  | l :: ls =>
    let r := procLine lineNo blk l
    let rs := procLines (lineNo + 1) r.state.inBlock ls
    ⟨rs.blk, r.newLine :: rs.newLines, r.changes ++ rs.changes,
      r.warnings ++ rs.warnings⟩

/-- Skip reasons of `process_file` (lines 58-59, 65-66). -/
inductive SkipReason where
  /-- `no non-ASCII bytes` -/
  | noNonAscii
  /-- `already valid UTF-8` -/
  | alreadyValidUtf8
deriving DecidableEq

/-- Result dict of `process_file`; `newData` is the reassembled content
`b'\n'.join(new_lines)` that would be written back when modified. -/
structure ProcResult where
  changes : List Change
  warnings : List Warning
  modified : Bool
  skipped : Option SkipReason
  newData : List Nat
deriving DecidableEq

/-- `fix-comment-encoding.py` lines 47-141, `process_file` on the raw byte
content of a file. -/
def process_file (data : List Nat) : ProcResult :=
  if ! data.any (fun b => 127 < b) then
    ⟨[], [], false, some .noNonAscii, data⟩
  else if is_valid_utf8 data then
    ⟨[], [], false, some .alreadyValidUtf8, data⟩
  else
    let r := procLines 1 false (splitNl data)
    ⟨r.changes, r.warnings, ! r.changes.isEmpty, none, joinNl r.newLines⟩

/-- The file content after one (non-dry) run of `process_file`: the source
writes `new_data` back only when `modified` (lines 135-138). -/
def afterRun (data : List Nat) : List Nat :=
  if (process_file data).modified then (process_file data).newData else data

/-! ## Scanner: `scan-non-ascii.py`, `scan_file` -/

/-- Hit record (lines 37-44); `charCp` is the code point of the ISO-8859-1
decoding of the byte, `context` the stripped ISO-8859-1-decoded line. -/
structure Hit where
  line : Nat
  col : Nat
  byte : Nat
  charCp : Nat
  context : List Nat
deriving DecidableEq

/-- Python `bytes.rfind(b'\n')`: index of the last newline, `-1` if none. -/
def rfindNl : List Nat → Int
  | [] => -1
  | b :: rest =>
    if rfindNl rest = -1 then (if b = 10 then 0 else -1) else rfindNl rest + 1

/-- Python `data.find(b'\n', i)`, with the source's `-1 → len(data)`
adjustment folded in (lines 32-34): the index of the first newline at or
after `i`, or `data.length`. -/
def findNlFrom (data : List Nat) (i : Nat) : Nat :=
  i + ((data.drop i).takeWhile (fun b => b != 10)).length

/-- The hit built for index `i` (lines 28-44). -/
def scanHit (data : List Nat) (i : Nat) : Hit :=
  let b := data.getD i 0
  let pre := data.take i
  let lineStart := (rfindNl pre + 1).toNat
  let lineEnd := findNlFrom data i
  { line := pre.count 10 + 1
    col := ((i : Int) - rfindNl pre - 1).toNat
    byte := b
    charCp := iso_char b
    context := stripWs ((data.take lineEnd).drop lineStart) }

/-- `scan-non-ascii.py` lines 20-45, `scan_file` on raw byte content. -/
def scan_file (data : List Nat) : List Hit :=
  (List.range data.length).filterMap fun i =>
    if 127 < data.getD i 0 then some (scanHit data i) else none

/-! Spec-side (line-by-line) description of the scanner output, used to
state what the hit fields mean: 1-based line number, 0-based column within
the line, the byte, its ISO-8859-1 code point, and the stripped full line
as context. -/

def scanLineGo (lineNo : Nat) (ctx : List Nat) : Nat → List Nat → List Hit
  | _, [] => []
  | c, b :: rest =>
    if 127 < b then
      ⟨lineNo, c, b, iso_char b, stripWs ctx⟩ :: scanLineGo lineNo ctx (c + 1) rest
    else scanLineGo lineNo ctx (c + 1) rest

def scanLinesGo (lineNo : Nat) : List (List Nat) → List Hit
  | [] => []
  | l :: ls => scanLineGo lineNo l 0 l ++ scanLinesGo (lineNo + 1) ls

def scanLines (data : List Nat) : List Hit := scanLinesGo 1 (splitNl data)

/-! ## Verifier: `verify-encoding.py`, `verify_file` and the exit code -/

/-- `(b & 0xC0) == 0x80`: UTF-8 continuation-byte pattern. -/
def isContByte (b : Nat) : Bool := b &&& 0xC0 == 0x80

/-- Lines 30-32: back up from `i` over continuation-pattern bytes. -/
def backUp (data : List Nat) : Nat → Nat
  | 0 => 0
  | j + 1 => if isContByte (data.getD (j + 1) 0) then backUp data j else j + 1

/-- Lines 34-36: extend `e` forward over continuation-pattern bytes. -/
def extendEnd (data : List Nat) (e : Nat) : Nat :=
  e + ((data.drop e).takeWhile isContByte).length

/-- Problem record (lines 47-53). -/
structure Problem where
  line : Nat
  col : Nat
  byte : Nat
  charIso : Nat
  context : List Nat
deriving DecidableEq

def mkProblem (data : List Nat) (i : Nat) : Problem :=
  let b := data.getD i 0
  let pre := data.take i
  let lineStart := (rfindNl pre + 1).toNat
  let lineEnd := findNlFrom data i
  { line := pre.count 10 + 1
    col := ((i : Int) - rfindNl pre - 1).toNat
    byte := b
    charIso := iso_char b
    context := stripWs ((data.take lineEnd).drop lineStart) }

/-- `verify-encoding.py` lines 16-55, `verify_file`: if the whole content
decodes as UTF-8 there are no problems; otherwise, for each non-ASCII byte
at `i`, back up to `start`, extend to `end`, and report a problem only when
that window fails to decode and `i == start`. -/
def verify_file (data : List Nat) : List Problem :=
  if is_valid_utf8 data then []
  else
    (List.range data.length).filterMap fun i =>
      if 127 < data.getD i 0 then
        let s := backUp data i
        let e := extendEnd data (s + 1)
        if ¬ is_valid_utf8 ((data.take e).drop s) ∧ i = s then
          some (mkProblem data i)
        else none
      else none

/-- Exit code of `verify-encoding.py` `main` (line 96): 0 exactly when no
file has any reported problem. -/
def verifierExit (files : List (List Nat)) : Nat :=
  if files.all (fun d => (verify_file d).isEmpty) then 0 else 1

/-! ## Spec-side helpers for the claims -/

/-- The classifier states sitting before each byte of a list. -/
def classStates (s : LState) : List Nat → List LState
  | [] => []
  | b :: rest => s :: classStates (stepByte s b) rest

/-- Spec-side description of one converted line: each byte classified
in-comment (line or block) and non-ASCII becomes the UTF-8 encoding of its
ISO-8859-1 code point; every other byte is kept unchanged in place. -/
def convLineSpec (s : LState) (l : List Nat) : List Nat :=
  (l.zip (classStates s l)).flatMap fun p =>
    if 127 < p.1 ∧ (p.2.inLine || p.2.inBlock) then utf8EncodeCp (iso_char p.1)
    else [p.1]

/-- Spec-side description of all converted lines, carrying only the block
flag across line boundaries. -/
def convLinesSpec (blk : Bool) : List (List Nat) → List (List Nat)
  | [] => []
  | l :: ls =>
    convLineSpec (mkLineState blk) l ::
      convLinesSpec (lineRun (mkLineState blk) l).inBlock ls

/-- Does the list contain the block-closing pattern, i.e. a byte 35 (`#`)
whose immediately preceding byte is 124 (`|`)?  `p` is the byte preceding
the list (the classifier's `prev_byte`). -/
def closeFrom (p : Nat) : List Nat → Bool
  | [] => false
  | b :: rest => (p = 124 ∧ b = 35) || closeFrom b rest

/-- `closeFrom` started with the line-initial `prev_byte = 0`. -/
def hasClose (l : List Nat) : Bool := closeFrom 0 l

/-- Output bytes of a fully-converted (warning-free) file: ASCII bytes and
two-byte UTF-8 sequences with lead 0xC2/0xC3. -/
def cleanBytes : List Nat → Bool
  | [] => true
  | [b] => b ≤ 127
  | b :: b2 :: r2 =>
    if b ≤ 127 then cleanBytes (b2 :: r2)
    else ((b = 0xC2 ∨ b = 0xC3) ∧ 0x80 ≤ b2 ∧ b2 ≤ 0xBF : Bool) && cleanBytes r2

/-! ## Basic facts about `process_file`'s branches -/

/-- `process_file` either skips for one of the two reasons or runs the line
loop. -/
theorem process_file_cases (data : List Nat) :
    (process_file data = ⟨[], [], false, some .noNonAscii, data⟩
        ∧ data.any (fun b => 127 < b) = false)
    ∨ (process_file data = ⟨[], [], false, some .alreadyValidUtf8, data⟩
        ∧ is_valid_utf8 data = true)
    ∨ (process_file data
        = ⟨(procLines 1 false (splitNl data)).changes,
           (procLines 1 false (splitNl data)).warnings,
           ! (procLines 1 false (splitNl data)).changes.isEmpty, none,
           joinNl (procLines 1 false (splitNl data)).newLines⟩
        ∧ data.any (fun b => 127 < b) = true ∧ is_valid_utf8 data = false) := by
  unfold process_file
  by_cases h1 : data.any (fun b => 127 < b)
  · by_cases h2 : is_valid_utf8 data
    · exact Or.inr (Or.inl (by simp [h1, h2]))
    · exact Or.inr (Or.inr (by simp [h1, h2]))
  · exact Or.inl (by simp_all)

end Pup

namespace Pup

/-- C6: `process_file` skips exactly when the file has no byte above 127 or
its full content decodes as UTF-8; a skipped file gets no changes, no
warnings and is not modified. -/
theorem process_file_skip_iff (data : List Nat) :
    ((process_file data).skipped.isSome
      = (! data.any (fun b => 127 < b) || is_valid_utf8 data))
    ∧ ((process_file data).skipped.isSome = true →
        (process_file data).changes = [] ∧ (process_file data).warnings = []
          ∧ (process_file data).modified = false) := by
  rcases process_file_cases data with ⟨h, hc⟩ | ⟨h, hc⟩ | ⟨h, hc, hv⟩ <;> rw [h]
  · simp [hc]
  · simp [hc]
  · simp [hc, hv]

/-- Witness for C6 at a file that is fully valid UTF-8 and contains a
multi-byte sequence (the three UTF-8 bytes of a curly quote). -/
theorem process_file_skip_iff_witness :
    (process_file [226, 128, 156]).skipped.isSome = true
      ∧ (process_file [226, 128, 156]).changes = []
      ∧ (process_file [226, 128, 156]).warnings = []
      ∧ (process_file [226, 128, 156]).modified = false :=
  ⟨by decide, (process_file_skip_iff [226, 128, 156]).2 (by decide)⟩

/-- C5: a byte 128 ≤ b ≤ 255 converted inside a comment is written as
`utf8EncodeCp (iso_char b)`; decoding those written bytes yields exactly
the single code point `iso_char b`, whose ISO-8859-1 single-byte encoding
is the original byte `b`. -/
theorem comment_byte_roundtrip (b : Nat) (h1 : 128 ≤ b) (h2 : b ≤ 255) :
    utf8DecodeOne (utf8EncodeCp (iso_char b)) = some (iso_char b, [])
      ∧ latin1EncodeCp (iso_char b) = some b := by
  constructor
  · have e : utf8EncodeCp (iso_char b) = [192 + b / 64, 128 + b % 64] := by
      simp only [utf8EncodeCp, iso_char]
      rw [if_neg (by omega), if_pos (by omega)]
    rw [e]
    simp only [utf8DecodeOne]
    rw [if_neg (by omega), if_pos (by omega), if_pos (by omega)]
    simp only [Option.some.injEq, Prod.mk.injEq, iso_char]
    exact ⟨by omega, trivial⟩
  · simp only [latin1EncodeCp, iso_char]
    rw [if_pos (by omega)]

/-- Witness for C5 at byte 0xE9 (`é`). -/
theorem comment_byte_roundtrip_witness :
    utf8DecodeOne (utf8EncodeCp (iso_char 233)) = some (iso_char 233, [])
      ∧ latin1EncodeCp (iso_char 233) = some 233 :=
  comment_byte_roundtrip 233 (by decide) (by decide)

/-- C4: a non-ASCII byte never changes the classifier flags, and a
non-ASCII byte directly adjacent (before or after) to a contiguous `|#` or
`#|` marker does not interfere with recognizing it. -/
theorem nonascii_state_and_markers :
    (∀ (s : LState) (b : Nat), 127 < b →
        (stepByte s b).inBlock = s.inBlock ∧ (stepByte s b).inLine = s.inLine
          ∧ (stepByte s b).inString = s.inString
          ∧ (stepByte s b).escapeNext = s.escapeNext)
    ∧ (∀ (s : LState) (b : Nat), 127 < b → s.inBlock = true →
        s.escapeNext = false →
        (lineRun s [b, 124, 35]).inBlock = false
          ∧ (lineRun s [124, 35, b]).inBlock = false)
    ∧ (∀ (p b : Nat), 127 < b →
        (lineRun ⟨false, false, false, false, p⟩ [b, 35, 124]).inBlock = true
          ∧ (lineRun ⟨false, false, false, false, p⟩ [35, 124, b]).inBlock
              = true) := by
  refine ⟨?_, ?_, ?_⟩
  · intro s b hb
    simp [stepByte, if_neg (by omega : ¬ b ≤ 127)]
  · intro s b hb hblk hesc
    obtain ⟨blk, ln, str, esc, p⟩ := s
    simp only at hblk hesc
    subst hblk hesc
    constructor
    · simp [lineRun, stepByte, stepAscii, if_neg (by omega : ¬ b ≤ 127),
        (by omega : b ≠ 124)]
    · simp [lineRun, stepByte, stepAscii, if_neg (by omega : ¬ b ≤ 127)]
  · intro p b hb
    constructor
    · simp [lineRun, stepByte, stepAscii, if_neg (by omega : ¬ b ≤ 127)]
    · simp [lineRun, stepByte, stepAscii, if_neg (by omega : ¬ b ≤ 127)]

/-- Witness for C4 at byte 0xE9 and concrete classifier states. -/
theorem nonascii_state_and_markers_witness :
    ((stepByte ⟨true, false, false, false, 0⟩ 233).inBlock = true
        ∧ (stepByte ⟨true, false, false, false, 0⟩ 233).inLine = false
        ∧ (stepByte ⟨true, false, false, false, 0⟩ 233).inString = false
        ∧ (stepByte ⟨true, false, false, false, 0⟩ 233).escapeNext = false)
    ∧ ((lineRun ⟨true, false, false, false, 0⟩ [233, 124, 35]).inBlock = false
        ∧ (lineRun ⟨true, false, false, false, 0⟩ [124, 35, 233]).inBlock = false)
    ∧ ((lineRun ⟨false, false, false, false, 0⟩ [233, 35, 124]).inBlock = true
        ∧ (lineRun ⟨false, false, false, false, 0⟩ [35, 124, 233]).inBlock
            = true) :=
  ⟨nonascii_state_and_markers.1 ⟨true, false, false, false, 0⟩ 233 (by decide),
   nonascii_state_and_markers.2.1 ⟨true, false, false, false, 0⟩ 233 (by decide)
     rfl rfl,
   nonascii_state_and_markers.2.2 0 233 (by decide)⟩

/-- C7 counterexample: a non-ASCII byte right after a backslash in a string
does NOT clear `escape_next` (the claim says any following byte does).
Consequently on the file `"\é";é` the closing quote is eaten by the stale
escape, the `;` stays inside the string, and the trailing `é` is warned
about instead of converted. -/
theorem escape_not_cleared_by_nonascii :
    (stepByte ⟨false, false, true, true, 92⟩ 233).escapeNext = true
      ∧ (process_file [34, 92, 233, 34, 59, 233]).changes = []
      ∧ (process_file [34, 92, 233, 34, 59, 233]).warnings.length = 2 := by
  decide

/-- C7 amended: in a string a backslash sets `escape_next`; the next ASCII
byte (≤ 127) is consumed literally, with no state transition, clearing
`escape_next`; a non-ASCII byte never changes `escape_next` (so the escape
applies to the next ASCII byte instead); an unescaped `"` exits to code. -/
theorem escape_semantics :
    (∀ s : LState, s.inString = true → s.escapeNext = false →
        s.inBlock = false → s.inLine = false →
        (stepByte s 92).escapeNext = true ∧ (stepByte s 92).inString = true
          ∧ (stepByte s 92).inBlock = false ∧ (stepByte s 92).inLine = false)
    ∧ (∀ (s : LState) (b : Nat), b ≤ 127 → s.escapeNext = true →
        stepByte s b = { s with escapeNext := false, prevByte := b })
    ∧ (∀ (s : LState) (b : Nat), 127 < b →
        (stepByte s b).escapeNext = s.escapeNext)
    ∧ (∀ s : LState, s.inString = true → s.escapeNext = false →
        s.inBlock = false → s.inLine = false →
        (stepByte s 34).inString = false ∧ (stepByte s 34).inBlock = false
          ∧ (stepByte s 34).inLine = false
          ∧ (stepByte s 34).escapeNext = false) := by
  refine ⟨?_, ?_, ?_, ?_⟩
  · intro s h1 h2 h3 h4
    obtain ⟨blk, ln, str, esc, p⟩ := s
    simp only at h1 h2 h3 h4
    subst h1 h2 h3 h4
    simp [stepByte, stepAscii]
  · intro s b hb he
    obtain ⟨blk, ln, str, esc, p⟩ := s
    simp only at he
    subst he
    simp [stepByte, stepAscii, hb]
  · intro s b hb
    simp [stepByte, if_neg (by omega : ¬ b ≤ 127)]
  · intro s h1 h2 h3 h4
    obtain ⟨blk, ln, str, esc, p⟩ := s
    simp only at h1 h2 h3 h4
    subst h1 h2 h3 h4
    simp [stepByte, stepAscii]

/-- Witness for C7's amended statement at concrete states and bytes. -/
theorem escape_semantics_witness :
    ((stepByte ⟨false, false, true, false, 0⟩ 92).escapeNext = true
        ∧ (stepByte ⟨false, false, true, false, 0⟩ 92).inString = true
        ∧ (stepByte ⟨false, false, true, false, 0⟩ 92).inBlock = false
        ∧ (stepByte ⟨false, false, true, false, 0⟩ 92).inLine = false)
    ∧ stepByte ⟨false, false, true, true, 92⟩ 34
        = { LState.mk false false true true 92 with
              escapeNext := false, prevByte := 34 }
    ∧ (stepByte ⟨false, false, true, true, 92⟩ 233).escapeNext
        = LState.escapeNext ⟨false, false, true, true, 92⟩
    ∧ ((stepByte ⟨false, false, true, false, 92⟩ 34).inString = false
        ∧ (stepByte ⟨false, false, true, false, 92⟩ 34).inBlock = false
        ∧ (stepByte ⟨false, false, true, false, 92⟩ 34).inLine = false
        ∧ (stepByte ⟨false, false, true, false, 92⟩ 34).escapeNext = false) :=
  ⟨escape_semantics.1 ⟨false, false, true, false, 0⟩ rfl rfl rfl rfl,
   escape_semantics.2.1 ⟨false, false, true, true, 92⟩ 34 (by decide) rfl,
   escape_semantics.2.2.1 ⟨false, false, true, true, 92⟩ 233 (by decide),
   escape_semantics.2.2.2 ⟨false, false, true, false, 92⟩ rfl rfl rfl rfl⟩

/-- C3: the Verifier misses a stray continuation byte that follows an ASCII
byte: `b"A\x80"` fails to decode as UTF-8, yet `verify_file` reports no
problem for it, and `main` then exits with code 0 although an invalid byte
remains. -/
theorem verifier_misses_stray_continuation :
    is_valid_utf8 [65, 128] = false ∧ verify_file [65, 128] = []
      ∧ verifierExit [[65, 128]] = 0 := by
  decide

/-! ## Lines: splitting and joining -/

theorem splitNl_ne_nil (data : List Nat) : splitNl data ≠ [] := by
  induction data with
  | nil => simp [splitNl]
  | cons b rest ih =>
    simp only [splitNl]
    split
    · simp
    · cases h : splitNl rest with
      | nil => exact absurd h ih
      | cons l ls => simp

theorem splitNl_no_nl (data : List Nat) :
    ∀ l ∈ splitNl data, 10 ∉ l := by
  induction data with
  | nil => simp [splitNl]
  | cons b rest ih =>
    intro l hl
    simp only [splitNl] at hl
    by_cases hb : b = 10
    · rw [if_pos hb] at hl
      rcases List.mem_cons.mp hl with h | h
      · simp [h]
      · exact ih l h
    · rw [if_neg hb] at hl
      cases h : splitNl rest with
      | nil => exact absurd h (splitNl_ne_nil rest)
      | cons l0 ls =>
        rw [h] at hl
        rcases List.mem_cons.mp hl with h2 | h2
        · subst h2
          intro hm
          rcases List.mem_cons.mp hm with h3 | h3
          · exact hb h3.symm
          · exact ih l0 (h ▸ List.mem_cons_self l0 ls) h3
        · exact ih l (h ▸ List.mem_cons_of_mem l0 h2)

theorem splitNl_length (data : List Nat) :
    (splitNl data).length = data.count 10 + 1 := by
  induction data with
  | nil => simp [splitNl]
  | cons b rest ih =>
    simp only [splitNl]
    by_cases hb : b = 10
    · subst hb
      simp [List.count_cons, ih]
    · rw [if_neg hb]
      cases h : splitNl rest with
      | nil => exact absurd h (splitNl_ne_nil rest)
      | cons l0 ls =>
        rw [h] at ih
        simp only [List.length_cons] at ih ⊢
        have : ((10 : Nat) == b) = false := by
          simp [BEq.beq]
          omega
        simp [List.count_cons, this, Nat.beq_eq, ih]
        omega

theorem joinNl_cons_cons (l₀ l₁ : List Nat) (ls : List (List Nat)) :
    joinNl (l₀ :: l₁ :: ls) = l₀ ++ 10 :: joinNl (l₁ :: ls) := rfl

theorem joinNl_splitNl (data : List Nat) : joinNl (splitNl data) = data := by
  induction data with
  | nil => simp [splitNl, joinNl]
  | cons b rest ih =>
    simp only [splitNl]
    by_cases hb : b = 10
    · subst hb
      rw [if_pos rfl]
      cases h : splitNl rest with
      | nil => exact absurd h (splitNl_ne_nil rest)
      | cons l0 ls =>
        rw [h] at ih
        rw [joinNl_cons_cons]
        simp [ih]
    · rw [if_neg hb]
      cases h : splitNl rest with
      | nil => exact absurd h (splitNl_ne_nil rest)
      | cons l0 ls =>
        rw [h] at ih
        cases ls with
        | nil => simpa [joinNl] using ih
        | cons l1 ls' =>
          rw [joinNl_cons_cons] at ih ⊢
          simpa using ih

theorem splitNl_all (p : Nat → Bool) (data : List Nat) (h : data.all p = true) :
    ∀ l ∈ splitNl data, l.all p = true := by
  induction data with
  | nil => simp [splitNl]
  | cons b rest ih =>
    simp only [List.all_cons, Bool.and_eq_true] at h
    intro l hl
    simp only [splitNl] at hl
    by_cases hb : b = 10
    · rw [if_pos hb] at hl
      rcases List.mem_cons.mp hl with h2 | h2
      · simp [h2]
      · exact ih h.2 l h2
    · rw [if_neg hb] at hl
      cases hsp : splitNl rest with
      | nil => exact absurd hsp (splitNl_ne_nil rest)
      | cons l0 ls =>
        rw [hsp] at hl
        rcases List.mem_cons.mp hl with h2 | h2
        · subst h2
          simp only [List.all_cons, Bool.and_eq_true]
          exact ⟨h.1, ih h.2 l0 (hsp ▸ List.mem_cons_self l0 ls)⟩
        · exact ih h.2 l (hsp ▸ List.mem_cons_of_mem l0 h2)

theorem joinNl_count_nl (ls : List (List Nat)) (hne : ls ≠ [])
    (h : ∀ l ∈ ls, 10 ∉ l) : (joinNl ls).count 10 = ls.length - 1 := by
  induction ls with
  | nil => exact absurd rfl hne
  | cons l0 tl ih =>
    cases tl with
    | nil =>
      simp only [joinNl, List.length_cons, Nat.add_sub_cancel]
      exact List.count_eq_zero.mpr (h l0 (List.mem_cons_self l0 []))
    | cons l1 ls' =>
      rw [joinNl_cons_cons]
      rw [List.count_append, List.count_cons]
      have h0 : l0.count 10 = 0 :=
        List.count_eq_zero.mpr (h l0 (List.mem_cons_self _ _))
      have ht : (joinNl (l1 :: ls')).count 10 = (l1 :: ls').length - 1 :=
        ih (by simp) (fun l hl => h l (List.mem_cons_of_mem l0 hl))
      simp [h0, ht]

/-! ## The converter's line loop versus its spec-side description -/

theorem convLineSpec_cons (s : LState) (b : Nat) (rest : List Nat) :
    convLineSpec s (b :: rest)
      = (if 127 < b ∧ (s.inLine || s.inBlock) then utf8EncodeCp (iso_char b)
         else [b]) ++ convLineSpec (stepByte s b) rest := by
  simp [convLineSpec, classStates]

theorem procLineGo_state (lineNo : Nat) (orig : List Nat) (l : List Nat) :
    ∀ (col : Nat) (s : LState),
      (procLineGo lineNo orig col s l).state = lineRun s l := by
  induction l with
  | nil => intro col s; rfl
  | cons b rest ih =>
    intro col s
    have hrun : lineRun s (b :: rest) = lineRun (stepByte s b) rest := rfl
    simp only [procLineGo, hrun]
    split
    · exact ih (col + 1) (stepByte s b)
    · split
      · exact ih (col + 1) (stepByte s b)
      · exact ih (col + 1) (stepByte s b)

theorem procLineGo_newLine (lineNo : Nat) (orig : List Nat) (l : List Nat) :
    ∀ (col : Nat) (s : LState),
      (procLineGo lineNo orig col s l).newLine = convLineSpec s l := by
  induction l with
  | nil => intro col s; rfl
  | cons b rest ih =>
    intro col s
    rw [convLineSpec_cons]
    simp only [procLineGo]
    by_cases hb : b ≤ 127
    · rw [if_pos hb, if_neg (by simp; omega)]
      simp [ih]
    · rw [if_neg hb]
      by_cases hc : (s.inLine || s.inBlock) = true
      · rw [if_pos hc, if_pos (by simp [hc]; omega)]
        simp [ih]
      · rw [if_neg hc, if_neg (by simp_all)]
        simp [ih]

theorem procLines_newLines (ls : List (List Nat)) :
    ∀ (n : Nat) (blk : Bool),
      (procLines n blk ls).newLines = convLinesSpec blk ls := by
  induction ls with
  | nil => intro n blk; rfl
  | cons l tl ih =>
    intro n blk
    simp only [procLines, convLinesSpec, procLine]
    rw [procLineGo_newLine, procLineGo_state, ih]

theorem procLines_newLines_length (ls : List (List Nat)) :
    ∀ (n : Nat) (blk : Bool),
      (procLines n blk ls).newLines.length = ls.length := by
  induction ls with
  | nil => intro n blk; rfl
  | cons l tl ih =>
    intro n blk
    simp only [procLines, List.length_cons]
    rw [ih]

theorem utf8EncodeCp_ge (c : Nat) (hc : 127 < c) :
    ∀ x ∈ utf8EncodeCp c, 128 ≤ x := by
  intro x hx
  simp only [utf8EncodeCp, if_neg (show ¬ c ≤ 127 by omega)] at hx
  by_cases h1 : c ≤ 2047
  · rw [if_pos h1] at hx
    simp at hx
    omega
  · rw [if_neg h1] at hx
    by_cases h2 : c ≤ 65535
    · rw [if_pos h2] at hx
      simp at hx
      omega
    · rw [if_neg h2] at hx
      simp at hx
      omega

theorem convLineSpec_no_nl (l : List Nat) :
    ∀ (s : LState), 10 ∉ l → 10 ∉ convLineSpec s l := by
  induction l with
  | nil => intro s _; simp [convLineSpec]
  | cons b rest ih =>
    intro s hl
    rw [convLineSpec_cons]
    intro hm
    rcases List.mem_append.mp hm with h | h
    · split at h
      · rename_i hcond
        have := utf8EncodeCp_ge (iso_char b) (by simpa [iso_char] using hcond.1) 10 h
        omega
      · simp only [List.mem_singleton] at h
        exact hl (h ▸ List.mem_cons_self b rest)
    · exact ih (stepByte s b) (fun hx => hl (List.mem_cons_of_mem b hx)) h

theorem convLinesSpec_no_nl (ls : List (List Nat)) :
    ∀ (blk : Bool), (∀ l ∈ ls, 10 ∉ l) →
      ∀ l' ∈ convLinesSpec blk ls, 10 ∉ l' := by
  induction ls with
  | nil => intro blk _; simp [convLinesSpec]
  | cons l tl ih =>
    intro blk h l' hl'
    simp only [convLinesSpec] at hl'
    rcases List.mem_cons.mp hl' with h2 | h2
    · exact h2 ▸ convLineSpec_no_nl l _ (h l (List.mem_cons_self _ _))
    · exact ih _ (fun x hx => h x (List.mem_cons_of_mem l hx)) l' h2

/-- C2: for a processed (non-skipped) file, the new content is exactly the
per-line per-byte rewrite: a non-ASCII byte whose classifier state is
in-line-comment or in-block-comment becomes the UTF-8 encoding of its
ISO-8859-1 code point, and every other byte — every byte classified as in
code, including all ASCII bytes — stays in place unchanged; moreover the
number of newline separators is preserved exactly. -/
theorem process_file_comment_conversion (data : List Nat)
    (h : (process_file data).skipped = none) :
    (process_file data).newData = joinNl (convLinesSpec false (splitNl data))
      ∧ (process_file data).newData.count 10 = data.count 10 := by
  rcases process_file_cases data with ⟨he, _⟩ | ⟨he, _⟩ | ⟨he, _, _⟩
  · rw [he] at h; simp at h
  · rw [he] at h; simp at h
  · rw [he]
    simp only
    constructor
    · rw [procLines_newLines]
    · rw [procLines_newLines]
      have hlen : (convLinesSpec false (splitNl data)).length
          = (splitNl data).length := by
        rw [← procLines_newLines (splitNl data) 1 false]
        exact procLines_newLines_length (splitNl data) 1 false
      rw [joinNl_count_nl _ (by
            intro hc
            apply splitNl_ne_nil data
            have h2 := hlen
            rw [hc] at h2
            simp only [List.length_nil] at h2
            exact List.length_eq_zero.mp h2.symm)
          (convLinesSpec_no_nl _ _ (splitNl_no_nl data))]
      rw [hlen, splitNl_length]
      simp

/-- Witness for C2 at the file `;é` (one in-comment byte converted). -/
theorem process_file_comment_conversion_witness :
    (process_file [59, 233]).skipped = none
      ∧ (process_file [59, 233]).newData
          = joinNl (convLinesSpec false (splitNl [59, 233]))
      ∧ (process_file [59, 233]).newData.count 10 = List.count 10 [59, 233] :=
  ⟨by decide, process_file_comment_conversion [59, 233] (by decide)⟩

/-! ## Clean output bytes: ASCII plus two-byte 0xC2/0xC3 sequences -/

theorem cleanBytes_cons_ascii (b : Nat) (hb : b ≤ 127) (l : List Nat) :
    cleanBytes (b :: l) = cleanBytes l := by
  cases l with
  | nil => simp [cleanBytes, hb]
  | cons b2 r2 => simp [cleanBytes, hb]

theorem cleanBytes_cons_two (b b2 : Nat) (l : List Nat) (hb : ¬ b ≤ 127) :
    cleanBytes (b :: b2 :: l)
      = (((b = 194 ∨ b = 195) ∧ 128 ≤ b2 ∧ b2 ≤ 191 : Bool) && cleanBytes l) := by
  simp [cleanBytes, hb]

theorem cleanBytes_valid_aux :
    ∀ (n : Nat) (l : List Nat), l.length ≤ n → cleanBytes l = true →
      utf8ValidFrom U8.st l = true := by
  intro n
  induction n with
  | zero =>
    intro l h _
    have : l = [] := List.length_eq_zero.mp (by omega)
    subst this
    rfl
  | succ n ih =>
    intro l h hc
    cases l with
    | nil => rfl
    | cons b rest =>
      by_cases hb : b ≤ 127
      · rw [cleanBytes_cons_ascii b hb] at hc
        have hstep : utf8Step U8.st b = some U8.st := by
          simp [utf8Step, hb]
        simp only [utf8ValidFrom, hstep]
        exact ih rest (by simp at h; omega) hc
      · cases rest with
        | nil => simp [cleanBytes, hb] at hc
        | cons b2 r2 =>
          rw [cleanBytes_cons_two b b2 r2 hb, Bool.and_eq_true,
            decide_eq_true_eq] at hc
          obtain ⟨⟨hlead, hcont⟩, hr⟩ := hc
          have hstep1 : utf8Step U8.st b = some U8.c1 := by
            simp only [utf8Step]
            rw [if_neg (by omega), if_pos (by omega)]
          have hstep2 : utf8Step U8.c1 b2 = some U8.st := by
            simp only [utf8Step]
            rw [if_pos (by omega)]
          simp only [utf8ValidFrom, hstep1, hstep2]
          exact ih r2 (by simp at h; omega) hr

theorem cleanBytes_valid (l : List Nat) (hc : cleanBytes l = true) :
    is_valid_utf8 l = true :=
  cleanBytes_valid_aux l.length l le_rfl hc

theorem cleanBytes_append_aux :
    ∀ (n : Nat) (a b : List Nat), a.length ≤ n → cleanBytes a = true →
      cleanBytes b = true → cleanBytes (a ++ b) = true := by
  intro n
  induction n with
  | zero =>
    intro a b h ha hb
    have : a = [] := List.length_eq_zero.mp (by omega)
    subst this
    simpa
  | succ n ih =>
    intro a b h ha hb
    cases a with
    | nil => simpa
    | cons x rest =>
      by_cases hx : x ≤ 127
      · rw [cleanBytes_cons_ascii x hx] at ha
        rw [List.cons_append, cleanBytes_cons_ascii x hx]
        exact ih rest b (by simp at h; omega) ha hb
      · cases rest with
        | nil => simp [cleanBytes, hx] at ha
        | cons b2 r2 =>
          rw [cleanBytes_cons_two x b2 r2 hx, Bool.and_eq_true] at ha
          obtain ⟨hcond, hr⟩ := ha
          rw [List.cons_append, List.cons_append,
            cleanBytes_cons_two x b2 (r2 ++ b) hx, Bool.and_eq_true]
          exact ⟨hcond, ih r2 b (by simp at h; omega) hr hb⟩

theorem cleanBytes_append (a b : List Nat) (ha : cleanBytes a = true)
    (hb : cleanBytes b = true) : cleanBytes (a ++ b) = true :=
  cleanBytes_append_aux a.length a b le_rfl ha hb

theorem procLineGo_clean (lineNo : Nat) (orig : List Nat) (l : List Nat) :
    ∀ (col : Nat) (s : LState),
      (procLineGo lineNo orig col s l).warnings = [] →
      l.all (fun b => b ≤ 255) = true →
      cleanBytes (procLineGo lineNo orig col s l).newLine = true := by
  induction l with
  | nil => intro col s _ _; rfl
  | cons b rest ih =>
    intro col s hw hall
    simp only [List.all_cons, Bool.and_eq_true, decide_eq_true_eq] at hall
    simp only [procLineGo] at hw ⊢
    by_cases hb : b ≤ 127
    · rw [if_pos hb] at hw ⊢
      simp only at hw ⊢
      rw [cleanBytes_cons_ascii b hb]
      exact ih (col + 1) (stepByte s b) hw hall.2
    · rw [if_neg hb] at hw ⊢
      by_cases hc : (s.inLine || s.inBlock) = true
      · rw [if_pos hc] at hw ⊢
        simp only at hw ⊢
        have henc : utf8EncodeCp (iso_char b) = [192 + b / 64, 128 + b % 64] := by
          simp only [utf8EncodeCp, iso_char]
          rw [if_neg (by omega), if_pos (by omega)]
        rw [henc]
        simp only [List.cons_append]
        rw [cleanBytes_cons_two _ _ _ (by omega), Bool.and_eq_true,
          decide_eq_true_eq]
        exact ⟨⟨by omega, by omega, by omega⟩,
          ih (col + 1) (stepByte s b) hw hall.2⟩
      · rw [if_neg hc] at hw
        simp at hw

/-- C1 counterexample: on the file `;é\n"é"` the first run converts the
in-comment 0xE9 and leaves the in-string 0xE9 (a warning), so the written
content is still not valid UTF-8; the second run then re-converts the two
UTF-8 bytes it wrote into the comment — two further changes, not zero. -/
theorem second_run_produces_changes :
    (process_file [59, 233, 10, 34, 233, 34]).skipped = none
      ∧ (process_file [59, 233, 10, 34, 233, 34]).changes.length = 1
      ∧ (process_file (afterRun [59, 233, 10, 34, 233, 34])).changes.length
          = 2 := by
  decide

theorem procLines_clean (ls : List (List Nat)) :
    ∀ (n : Nat) (blk : Bool),
      (procLines n blk ls).warnings = [] →
      (∀ l ∈ ls, l.all (fun b => b ≤ 255) = true) →
      cleanBytes (joinNl (procLines n blk ls).newLines) = true := by
  induction ls with
  | nil => intro n blk _ _; rfl
  | cons l tl ih =>
    intro n blk hw hall
    simp only [procLines] at hw ⊢
    rw [List.append_eq_nil] at hw
    have hline : cleanBytes (procLine n blk l).newLine = true :=
      procLineGo_clean n l l 0 (mkLineState blk) hw.1
        (hall l (List.mem_cons_self _ _))
    cases tl with
    | nil =>
      simp only [procLines, joinNl]
      exact hline
    | cons t ts =>
      have htl : cleanBytes
          (joinNl (procLines (n + 1) (procLine n blk l).state.inBlock
            (t :: ts)).newLines) = true :=
        ih (n + 1) (procLine n blk l).state.inBlock hw.2
          (fun x hx => hall x (List.mem_cons_of_mem l hx))
      have hcons : (procLines (n + 1) (procLine n blk l).state.inBlock
          (t :: ts)).newLines
          = (procLine (n + 1) (procLine n blk l).state.inBlock t).newLine ::
            (procLines (n + 2) (procLine (n + 1)
              (procLine n blk l).state.inBlock t).state.inBlock ts).newLines := rfl
      rw [hcons, joinNl_cons_cons, ← hcons]
      apply cleanBytes_append _ _ hline
      rw [cleanBytes_cons_ascii 10 (by omega)]
      exact htl

/-- C1 amended: running the Converter a second time yields zero changes for
every file whose first run emitted no warnings (then every remaining
non-ASCII byte was converted, so the written content is valid UTF-8 and the
second run skips it); when warnings remain, the second run can re-convert
the UTF-8 bytes written into comments, as the counterexample shows. -/
theorem second_run_no_changes_of_no_warnings (data : List Nat)
    (hb : data.all (fun b => b ≤ 255) = true)
    (hw : (process_file data).warnings = []) :
    (process_file (afterRun data)).changes = [] := by
  rcases process_file_cases data with ⟨he, _⟩ | ⟨he, _⟩ | ⟨he, _, _⟩
  · unfold afterRun
    rw [he]
    simp only [Bool.false_eq_true, if_false]
    rw [he]
  · unfold afterRun
    rw [he]
    simp only [Bool.false_eq_true, if_false]
    rw [he]
  · rw [he] at hw
    simp only at hw
    by_cases hm : (procLines 1 false (splitNl data)).changes.isEmpty
    · unfold afterRun
      rw [he]
      simp only [hm, Bool.not_true, Bool.false_eq_true, if_false]
      rw [he]
      simpa using hm
    · have hmod : (process_file data).modified = true := by
        rw [he]
        simp [hm]
      have hnew : afterRun data
          = joinNl (procLines 1 false (splitNl data)).newLines := by
        unfold afterRun
        rw [hmod, if_pos rfl, he]
      have hvalid : is_valid_utf8 (afterRun data) = true := by
        rw [hnew]
        exact cleanBytes_valid _ (procLines_clean (splitNl data) 1 false hw
          (splitNl_all _ data hb))
      rcases process_file_cases (afterRun data) with ⟨he2, _⟩ | ⟨he2, _⟩
        | ⟨_, _, hv2⟩
      · rw [he2]
      · rw [he2]
      · rw [hvalid] at hv2
        exact absurd hv2 (by simp)

/-- Witness for C1's amended statement at the warning-free file `;é`. -/
theorem second_run_no_changes_witness :
    List.all [59, 233] (fun b => b ≤ 255) = true
      ∧ (process_file [59, 233]).warnings = []
      ∧ (process_file (afterRun [59, 233])).changes = [] :=
  ⟨by decide, by decide,
   second_run_no_changes_of_no_warnings [59, 233] (by decide) (by decide)⟩

/-! ## C8: only the block flag crosses line boundaries -/

theorem lineRun_block_persist (l : List Nat) :
    ∀ (s : LState), s.inBlock = true → s.escapeNext = false →
      closeFrom s.prevByte l = false →
      (lineRun s l).inBlock = true ∧ (lineRun s l).escapeNext = false := by
  induction l with
  | nil => intro s h1 h2 _; exact ⟨h1, h2⟩
  | cons b rest ih =>
    intro s h1 h2 hcf
    simp only [closeFrom, Bool.or_eq_false_iff, decide_eq_false_iff_not] at hcf
    have hs : stepByte s b = { s with prevByte := b } := by
      by_cases hb : b ≤ 127
      · simp only [stepByte, if_pos hb, stepAscii, h1, h2]
        simp only [Bool.false_eq_true, if_false, if_true]
        rw [if_neg hcf.1]
      · simp [stepByte, hb]
    have hrun : lineRun s (b :: rest) = lineRun (stepByte s b) rest := rfl
    rw [hrun, hs]
    exact ih { s with prevByte := b } (by simpa using h1) (by simpa using h2)
      (by simpa using hcf.2)

theorem procLines_block_persist (ls : List (List Nat)) :
    ∀ (n : Nat), (∀ l ∈ ls, hasClose l = false) →
      (procLines n true ls).blk = true := by
  induction ls with
  | nil => intro n _; rfl
  | cons l tl ih =>
    intro n h
    have hline : (procLine n true l).state.inBlock = true := by
      rw [procLine, procLineGo_state]
      exact (lineRun_block_persist l (mkLineState true) rfl rfl
        (h l (List.mem_cons_self _ _))).1
    simp only [procLines]
    rw [hline]
    exact ih (n + 1) (fun x hx => h x (List.mem_cons_of_mem l hx))

theorem procLines_append (ls₁ ls₂ : List (List Nat)) :
    ∀ (n : Nat) (blk : Bool),
      procLines n blk (ls₁ ++ ls₂)
        = ⟨(procLines (n + ls₁.length) (procLines n blk ls₁).blk ls₂).blk,
           (procLines n blk ls₁).newLines
             ++ (procLines (n + ls₁.length) (procLines n blk ls₁).blk
                  ls₂).newLines,
           (procLines n blk ls₁).changes
             ++ (procLines (n + ls₁.length) (procLines n blk ls₁).blk
                  ls₂).changes,
           (procLines n blk ls₁).warnings
             ++ (procLines (n + ls₁.length) (procLines n blk ls₁).blk
                  ls₂).warnings⟩ := by
  induction ls₁ with
  | nil => intro n blk; simp [procLines]
  | cons l tl ih =>
    intro n blk
    simp only [List.cons_append, procLines, List.length_cons, List.append_eq]
    rw [ih]
    have harith : n + (tl.length + 1) = n + 1 + tl.length := by omega
    simp [harith, List.append_assoc]

/-- C8: the block-comment flag is the only classifier state carried across
line boundaries.  (i) A line opened in block-comment state with no
adjacent `|#` pair stays in block-comment state at its end; (ii) lifted to
whole files: with the block flag set, any list of `|#`-free lines leaves it
set; (iii) processing `ls₁ ++ ls₂` equals processing `ls₁` and then `ls₂`
from only the final block flag of `ls₁` (with suitably shifted line
numbers); (iv) every line starts with the line-comment, string and
escape-pending flags reset to false (and `prev_byte` reset to 0). -/
theorem block_state_only_across_lines :
    (∀ (l : List Nat), hasClose l = false →
        (lineRun (mkLineState true) l).inBlock = true)
    ∧ (∀ (ls : List (List Nat)) (n : Nat), (∀ l ∈ ls, hasClose l = false) →
        (procLines n true ls).blk = true)
    ∧ (∀ (ls₁ ls₂ : List (List Nat)) (n : Nat) (blk : Bool),
        procLines n blk (ls₁ ++ ls₂)
          = ⟨(procLines (n + ls₁.length) (procLines n blk ls₁).blk ls₂).blk,
             (procLines n blk ls₁).newLines
               ++ (procLines (n + ls₁.length) (procLines n blk ls₁).blk
                    ls₂).newLines,
             (procLines n blk ls₁).changes
               ++ (procLines (n + ls₁.length) (procLines n blk ls₁).blk
                    ls₂).changes,
             (procLines n blk ls₁).warnings
               ++ (procLines (n + ls₁.length) (procLines n blk ls₁).blk
                    ls₂).warnings⟩)
    ∧ (∀ blk : Bool, (mkLineState blk).inLine = false
        ∧ (mkLineState blk).inString = false
        ∧ (mkLineState blk).escapeNext = false
        ∧ (mkLineState blk).prevByte = 0
        ∧ (mkLineState blk).inBlock = blk) := by
  refine ⟨?_, ?_, ?_, ?_⟩
  · intro l h
    exact (lineRun_block_persist l (mkLineState true) rfl rfl h).1
  · intro ls n h
    exact procLines_block_persist ls n h
  · intro ls₁ ls₂ n blk
    exact procLines_append ls₁ ls₂ n blk
  · intro blk
    exact ⟨rfl, rfl, rfl, rfl, rfl⟩

/-! ## Scanner: flat-index arithmetic versus line-by-line description -/

theorem filterMap_congr_mem {α β : Type} (l : List α) (f g : α → Option β)
    (h : ∀ a ∈ l, f a = g a) : l.filterMap f = l.filterMap g := by
  induction l with
  | nil => rfl
  | cons a t ih =>
    simp only [List.filterMap_cons, h a (List.mem_cons_self _ _)]
    rw [ih (fun x hx => h x (List.mem_cons_of_mem a hx))]

theorem rfindNl_ge (l : List Nat) : -1 ≤ rfindNl l := by
  induction l with
  | nil => simp [rfindNl]
  | cons b rest ih =>
    simp only [rfindNl]
    split
    · split <;> omega
    · omega

theorem rfindNl_eq_neg_one (l : List Nat) (h : 10 ∉ l) : rfindNl l = -1 := by
  induction l with
  | nil => rfl
  | cons b rest ih =>
    have hb : b ≠ 10 := fun hb => h (by rw [hb]; exact List.mem_cons_self 10 rest)
    have hr : rfindNl rest = -1 := ih (fun hm => h (List.mem_cons_of_mem b hm))
    simp only [rfindNl, hr, if_pos rfl, if_neg hb]
    simp

theorem rfindNl_append (a b : List Nat) :
    rfindNl (a ++ b)
      = if rfindNl b = -1 then rfindNl a else a.length + rfindNl b := by
  induction a with
  | nil => by_cases hb : rfindNl b = -1 <;> simp [hb, rfindNl]
  | cons x a' ih =>
    by_cases hb : rfindNl b = -1
    · rw [if_pos hb]
      rw [if_pos hb] at ih
      simp only [List.cons_append, List.append_eq, rfindNl, ih]
    · rw [if_neg hb]
      rw [if_neg hb] at ih
      have h1 : (0 : Int) ≤ rfindNl b := by
        have := rfindNl_ge b
        omega
      simp only [List.cons_append, List.append_eq, rfindNl, ih]
      have h2 : ¬ ((a'.length : Int) + rfindNl b = -1) := by omega
      rw [if_neg h2]
      simp only [List.length_cons]
      push_cast
      omega

theorem takeWhile_all_append (p : Nat → Bool) (a b : List Nat)
    (ha : ∀ x ∈ a, p x = true) :
    (a ++ b).takeWhile p = a ++ b.takeWhile p := by
  rw [List.takeWhile_append]
  rw [List.takeWhile_eq_self_iff.mpr ha]
  simp

/-- The scanner's line-number shift: bumping every reported line by one. -/
def bumpLine (h : Hit) : Hit := { h with line := h.line + 1 }

theorem scanLineGo_map_bump (n : Nat) (ctx : List Nat) (l : List Nat) :
    ∀ c : Nat, (scanLineGo n ctx c l).map bumpLine = scanLineGo (n + 1) ctx c l := by
  induction l with
  | nil => intro c; rfl
  | cons b rest ih =>
    intro c
    simp only [scanLineGo]
    split
    · simp only [List.map_cons, ih]
      rfl
    · exact ih (c + 1)

theorem scanLinesGo_map_bump (ls : List (List Nat)) :
    ∀ n : Nat, (scanLinesGo n ls).map bumpLine = scanLinesGo (n + 1) ls := by
  induction ls with
  | nil => intro n; rfl
  | cons l tl ih =>
    intro n
    simp only [scanLinesGo, List.map_append, scanLineGo_map_bump, ih]

theorem splitNl_singleton (data : List Nat) (h : 10 ∉ data) :
    splitNl data = [data] := by
  induction data with
  | nil => rfl
  | cons b rest ih =>
    have hb : ¬ b = 10 := fun hb => h (by rw [hb]; exact List.mem_cons_self 10 rest)
    simp only [splitNl, if_neg hb]
    rw [ih (fun hm => h (List.mem_cons_of_mem b hm))]

theorem splitNl_append_nl (l rest : List Nat) (hnl : 10 ∉ l) :
    splitNl (l ++ 10 :: rest) = l :: splitNl rest := by
  induction l with
  | nil => simp [splitNl]
  | cons b l' ih =>
    have hb : ¬ b = 10 := fun hb => hnl (by rw [hb]; exact List.mem_cons_self 10 l')
    simp only [List.cons_append, List.append_eq, splitNl, if_neg hb]
    rw [ih (fun hm => hnl (List.mem_cons_of_mem b hm))]

theorem mem_split_first_nl (data : List Nat) (h : 10 ∈ data) :
    ∃ l rest, data = l ++ 10 :: rest ∧ 10 ∉ l := by
  induction data with
  | nil => simp at h
  | cons b r ih =>
    by_cases hb : b = 10
    · exact ⟨[], r, by simp [hb], by simp⟩
    · have hr : 10 ∈ r := by
        rcases List.mem_cons.mp h with h2 | h2
        · exact absurd h2.symm hb
        · exact h2
      obtain ⟨l, rest, heq, hnl⟩ := ih hr
      refine ⟨b :: l, rest, by simp [heq], ?_⟩
      intro hm
      rcases List.mem_cons.mp hm with h2 | h2
      · exact hb h2.symm
      · exact hnl h2

theorem scanLineGo_eq_filterMap (n : Nat) (ctx : List Nat) (l : List Nat) :
    ∀ c : Nat,
      scanLineGo n ctx c l = (List.range l.length).filterMap (fun i =>
        if 127 < l.getD i 0 then
          some ⟨n, c + i, l.getD i 0, iso_char (l.getD i 0), stripWs ctx⟩
        else none) := by
  induction l with
  | nil => intro c; rfl
  | cons b rest ih =>
    intro c
    rw [List.length_cons, List.range_succ_eq_map, List.filterMap_cons,
      List.filterMap_map]
    have hcomp : ((fun i => if 127 < (b :: rest).getD i 0 then
          some (Hit.mk n (c + i) ((b :: rest).getD i 0)
            (iso_char ((b :: rest).getD i 0)) (stripWs ctx))
        else none) ∘ Nat.succ)
        = (fun i => if 127 < rest.getD i 0 then
            some (Hit.mk n (c + 1 + i) (rest.getD i 0)
              (iso_char (rest.getD i 0)) (stripWs ctx))
          else none) := by
      funext i
      have hgd : (b :: rest).getD (Nat.succ i) 0 = rest.getD i 0 := rfl
      have hc : c + Nat.succ i = c + 1 + i := by omega
      simp only [Function.comp_apply, hgd, hc]
    rw [hcomp, ← ih (c + 1)]
    have hgd0 : (b :: rest).getD 0 0 = b := rfl
    simp only [scanLineGo, hgd0, Nat.add_zero]
    by_cases hb : 127 < b
    · rw [if_pos hb, if_pos hb]
    · rw [if_neg hb, if_neg hb]

theorem scanHit_no_nl (l : List Nat) (i : Nat) (hi : i < l.length)
    (hnl : 10 ∉ l) :
    scanHit l i = ⟨1, i, l.getD i 0, iso_char (l.getD i 0), stripWs l⟩ := by
  have hnl' : 10 ∉ l.take i := fun hm => hnl (List.take_subset i l hm)
  have hr : rfindNl (l.take i) = -1 := rfindNl_eq_neg_one _ hnl'
  have hcount : (l.take i).count 10 = 0 := List.count_eq_zero.mpr hnl'
  have hfind : findNlFrom l i = l.length := by
    unfold findNlFrom
    have hall : ∀ x ∈ l.drop i, (x != 10) = true := by
      intro x hx
      have hxl : x ∈ l := List.drop_subset i l hx
      simp only [bne_iff_ne, ne_eq]
      exact fun h10 => hnl (h10 ▸ hxl)
    rw [List.takeWhile_eq_self_iff.mpr hall, List.length_drop]
    omega
  simp only [scanHit, hr, hcount, hfind]
  have h1 : ((i : Int) - -1 - 1).toNat = i := by omega
  have h2 : ((-1 : Int) + 1).toNat = 0 := rfl
  rw [h1, h2, List.take_length, List.drop_zero]

theorem scan_file_single (l : List Nat) (hnl : 10 ∉ l) :
    scan_file l = scanLineGo 1 l 0 l := by
  rw [scanLineGo_eq_filterMap 1 l l 0]
  unfold scan_file
  apply filterMap_congr_mem
  intro i hi
  have hilt : i < l.length := List.mem_range.mp hi
  by_cases hb : 127 < l.getD i 0
  · rw [if_pos hb, if_pos hb, scanHit_no_nl l i hilt hnl]
    simp
  · rw [if_neg hb, if_neg hb]

theorem scanHit_first (l rest : List Nat) (hnl : 10 ∉ l) (i : Nat)
    (hi : i < l.length) :
    scanHit (l ++ 10 :: rest) i
      = ⟨1, i, l.getD i 0, iso_char (l.getD i 0), stripWs l⟩ := by
  have hpre : (l ++ 10 :: rest).take i = l.take i :=
    List.take_append_of_le_length (le_of_lt hi)
  have hnl' : 10 ∉ l.take i := fun hm => hnl (List.take_subset i l hm)
  have hr : rfindNl (l.take i) = -1 := rfindNl_eq_neg_one _ hnl'
  have hcount : (l.take i).count 10 = 0 := List.count_eq_zero.mpr hnl'
  have hgd : (l ++ 10 :: rest).getD i 0 = l.getD i 0 :=
    List.getD_append l (10 :: rest) 0 i hi
  have hfind : findNlFrom (l ++ 10 :: rest) i = l.length := by
    unfold findNlFrom
    have hdrop : (l ++ 10 :: rest).drop i = l.drop i ++ 10 :: rest :=
      List.drop_append_of_le_length (le_of_lt hi)
    have hall : ∀ x ∈ l.drop i, ((x != 10) = true) := by
      intro x hx
      have hxl : x ∈ l := List.drop_subset i l hx
      simp only [bne_iff_ne, ne_eq]
      exact fun h10 => hnl (h10 ▸ hxl)
    rw [hdrop, takeWhile_all_append _ _ _ hall]
    have h10 : ((10 : Nat) != 10) = false := by decide
    rw [List.takeWhile_cons, h10]
    simp only [Bool.false_eq_true, if_false, List.append_nil, List.length_drop]
    omega
  have htake : (l ++ 10 :: rest).take l.length = l := List.take_left l (10 :: rest)
  simp only [scanHit, hpre, hr, hcount, hgd, hfind, htake]
  have h1 : ((i : Int) - -1 - 1).toNat = i := by omega
  have h2 : ((-1 : Int) + 1).toNat = 0 := rfl
  rw [h1, h2, List.drop_zero]

theorem scanHit_shift (l rest : List Nat) (hnl : 10 ∉ l) (j : Nat) :
    scanHit (l ++ 10 :: rest) (l.length + 1 + j)
      = bumpLine (scanHit rest j) := by
  have hdata : l ++ 10 :: rest = (l ++ [10]) ++ rest := by simp
  have hlen1 : (l ++ [10]).length = l.length + 1 := by simp
  have hidx : l.length + 1 + j = (l ++ [10]).length + j := by rw [hlen1]
  -- the prefix of length L+1+j
  have hpre : (l ++ 10 :: rest).take (l.length + 1 + j)
      = (l ++ [10]) ++ rest.take j := by
    rw [hdata, hidx]
    exact List.take_append j
  have hcnt0 : l.count 10 = 0 := List.count_eq_zero.mpr hnl
  have hcount : ((l ++ [10]) ++ rest.take j).count 10
      = (rest.take j).count 10 + 1 := by
    rw [List.count_append, List.count_append, hcnt0]
    simp
    omega
  have hrl : rfindNl (l ++ [10]) = l.length := by
    rw [rfindNl_append]
    have : rfindNl [10] = 0 := by decide
    rw [this]
    simp
  have hrfind : rfindNl ((l ++ [10]) ++ rest.take j)
      = if rfindNl (rest.take j) = -1 then (l.length : Int)
        else (l.length + 1 : Int) + rfindNl (rest.take j) := by
    rw [rfindNl_append]
    by_cases hj : rfindNl (rest.take j) = -1
    · rw [if_pos hj, if_pos hj, hrl]
    · rw [if_neg hj, if_neg hj, hlen1]
      push_cast
      omega
  have hgd : (l ++ 10 :: rest).getD (l.length + 1 + j) 0 = rest.getD j 0 := by
    have hR := List.getD_append_right (l ++ [10]) rest 0
      ((l ++ [10]).length + j) (by omega)
    rw [hdata, hidx, hR]
    congr 1
    omega
  have hdrop : (l ++ 10 :: rest).drop (l.length + 1 + j) = rest.drop j := by
    rw [hdata, hidx]
    exact List.drop_append j
  have hfind : findNlFrom (l ++ 10 :: rest) (l.length + 1 + j)
      = l.length + 1 + findNlFrom rest j := by
    unfold findNlFrom
    rw [hdrop]
    omega
  have htakeEnd : ∀ e : Nat, (l ++ 10 :: rest).take (l.length + 1 + e)
      = (l ++ [10]) ++ rest.take e := by
    intro e
    rw [hdata, show l.length + 1 + e = (l ++ [10]).length + e by rw [hlen1]]
    exact List.take_append e
  have hdropStart : ∀ (s : Nat) (x : List Nat),
      ((l ++ [10]) ++ x).drop (l.length + 1 + s) = x.drop s := by
    intro s x
    rw [show l.length + 1 + s = (l ++ [10]).length + s by rw [hlen1]]
    exact List.drop_append s
  simp only [scanHit, hpre, hcount, hrfind, hgd, hfind]
  by_cases hj : rfindNl (rest.take j) = -1
  · rw [if_pos hj, hj]
    have hcol : (((l.length : Int) + 1 + j) - l.length - 1).toNat
        = ((j : Int) - -1 - 1).toNat := by omega
    have hst : ((l.length : Int) + 1).toNat = l.length + 1 + ((-1 : Int) + 1).toNat := by
      omega
    simp only [bumpLine]
    rw [show ((l.length + 1 + j : Nat) : Int) = (l.length : Int) + 1 + j by push_cast; omega]
    rw [hcol, hst, htakeEnd, hdropStart]
  · rw [if_neg hj]
    have hge : (0 : Int) ≤ rfindNl (rest.take j) := by
      have := rfindNl_ge (rest.take j)
      omega
    have hcol : (((l.length + 1 + j : Nat) : Int)
          - ((l.length + 1 : Int) + rfindNl (rest.take j)) - 1).toNat
        = ((j : Int) - rfindNl (rest.take j) - 1).toNat := by
      push_cast
      omega
    have hst : ((l.length + 1 : Int) + rfindNl (rest.take j) + 1).toNat
        = l.length + 1 + (rfindNl (rest.take j) + 1).toNat := by omega
    simp only [bumpLine]
    rw [hcol, hst, htakeEnd, hdropStart]

theorem scan_file_append_nl (l rest : List Nat) (hnl : 10 ∉ l) :
    scan_file (l ++ 10 :: rest)
      = scanLineGo 1 l 0 l ++ (scan_file rest).map bumpLine := by
  unfold scan_file
  have hlen : (l ++ 10 :: rest).length = (l.length + 1) + rest.length := by
    simp
    omega
  rw [hlen, List.range_add, List.filterMap_append, List.filterMap_map]
  congr 1
  · -- indices below the newline: the first line
    rw [List.range_succ, List.filterMap_append]
    have hgdL : (l ++ 10 :: rest).getD l.length 0 = 10 := by
      rw [List.getD_append_right l (10 :: rest) 0 l.length le_rfl]
      simp
    have hnone : (if 127 < (l ++ 10 :: rest).getD l.length 0
        then some (scanHit (l ++ 10 :: rest) l.length) else none) = none := by
      rw [hgdL]
      norm_num
    have hlast : List.filterMap (fun i =>
        if 127 < (l ++ 10 :: rest).getD i 0
        then some (scanHit (l ++ 10 :: rest) i) else none) [l.length] = [] := by
      simp only [List.filterMap_cons, List.filterMap_nil, hnone]
    rw [hlast, List.append_nil, scanLineGo_eq_filterMap 1 l l 0]
    apply filterMap_congr_mem
    intro i hi
    have hilt : i < l.length := List.mem_range.mp hi
    have hgd : (l ++ 10 :: rest).getD i 0 = l.getD i 0 :=
      List.getD_append l (10 :: rest) 0 i hilt
    rw [hgd]
    by_cases hb : 127 < l.getD i 0
    · rw [if_pos hb, if_pos hb, scanHit_first l rest hnl i hilt]
      simp
    · rw [if_neg hb, if_neg hb]
  · -- indices beyond the newline: the remaining lines, lines bumped by one
    rw [List.map_filterMap]
    apply filterMap_congr_mem
    intro j hj
    simp only [Function.comp_apply]
    have hgd : (l ++ 10 :: rest).getD (l.length + 1 + j) 0 = rest.getD j 0 := by
      have hdata : l ++ 10 :: rest = (l ++ [10]) ++ rest := by simp
      have hlen1 : (l ++ [10]).length = l.length + 1 := by simp
      have hR := List.getD_append_right (l ++ [10]) rest 0
        ((l ++ [10]).length + j) (by omega)
      rw [hdata, show l.length + 1 + j = (l ++ [10]).length + j by rw [hlen1], hR]
      congr 1
      omega
    rw [hgd]
    by_cases hb : 127 < rest.getD j 0
    · rw [if_pos hb, if_pos hb, scanHit_shift l rest hnl j]
      rfl
    · rw [if_neg hb, if_neg hb]
      rfl

theorem scan_file_eq_scanLines_aux :
    ∀ (n : Nat) (data : List Nat), data.length ≤ n →
      scan_file data = scanLines data := by
  intro n
  induction n with
  | zero =>
    intro data h
    have hd : data = [] := List.length_eq_zero.mp (by omega)
    subst hd
    rfl
  | succ n ih =>
    intro data h
    by_cases hmem : 10 ∈ data
    · obtain ⟨l, rest, heq, hnl⟩ := mem_split_first_nl data hmem
      subst heq
      rw [scan_file_append_nl l rest hnl]
      unfold scanLines
      rw [splitNl_append_nl l rest hnl]
      simp only [scanLinesGo]
      congr 1
      have hrlen : rest.length ≤ n := by
        simp only [List.length_append, List.length_cons] at h
        omega
      rw [ih rest hrlen]
      unfold scanLines
      exact scanLinesGo_map_bump (splitNl rest) 1
    · rw [scan_file_single data hmem]
      unfold scanLines
      rw [splitNl_singleton data hmem]
      simp [scanLinesGo]

theorem scan_file_eq_scanLines (data : List Nat) :
    scan_file data = scanLines data :=
  scan_file_eq_scanLines_aux data.length data le_rfl

theorem scanLineGo_length (n : Nat) (ctx : List Nat) (l : List Nat) :
    ∀ c : Nat, (scanLineGo n ctx c l).length
      = (l.filter (fun b => 127 < b)).length := by
  induction l with
  | nil => intro c; rfl
  | cons b rest ih =>
    intro c
    by_cases hb : 127 < b
    · simp [scanLineGo, List.filter_cons, hb, ih (c + 1)]
    · simp [scanLineGo, List.filter_cons, hb, ih (c + 1)]

theorem scanLinesGo_length (ls : List (List Nat)) :
    ∀ n : Nat, (scanLinesGo n ls).length
      = ((joinNl ls).filter (fun b => 127 < b)).length := by
  induction ls with
  | nil => intro n; rfl
  | cons l tl ih =>
    intro n
    cases tl with
    | nil =>
      simp only [scanLinesGo, joinNl, List.length_append, List.length_nil]
      rw [scanLineGo_length]
      simp
    | cons t ts =>
      rw [show scanLinesGo n (l :: t :: ts)
            = scanLineGo n l 0 l ++ scanLinesGo (n + 1) (t :: ts) from rfl,
        List.length_append, scanLineGo_length, ih (n + 1), joinNl_cons_cons,
        List.filter_append]
      simp [List.filter_cons]

/-- Projection of a converter change record to (line, column, byte). -/
def changePos (c : Change) : Nat × Nat × Nat := (c.line, c.col, c.byte)

/-- Projection of a converter warning record to (line, column, byte). -/
def warnPos (w : Warning) : Nat × Nat × Nat := (w.line, w.col, w.byte)

/-- Projection of a scanner hit to (line, column + 1, byte): the scanner's
0-based column shifted up by one. -/
def hitPosShift (h : Hit) : Nat × Nat × Nat := (h.line, h.col + 1, h.byte)

theorem perm_shuffle {α : Type} (A B C D : List α) :
    ((A ++ C) ++ (B ++ D)).Perm ((A ++ B) ++ (C ++ D)) := by
  have h1 : (C ++ (B ++ D)).Perm (B ++ (C ++ D)) := by
    have h2 : ((C ++ B) ++ D).Perm ((B ++ C) ++ D) :=
      (@List.perm_append_comm _ C B).append_right D
    rwa [List.append_assoc, List.append_assoc] at h2
  have h3 : (A ++ (C ++ (B ++ D))).Perm (A ++ (B ++ (C ++ D))) :=
    h1.append_left A
  rw [List.append_assoc A C (B ++ D), List.append_assoc A B (C ++ D)]
  exact h3

theorem procLineGo_records_perm (lineNo : Nat) (orig : List Nat)
    (l : List Nat) :
    ∀ (col : Nat) (s : LState),
      ((procLineGo lineNo orig col s l).changes.map changePos
        ++ (procLineGo lineNo orig col s l).warnings.map warnPos).Perm
        ((scanLineGo lineNo orig col l).map hitPosShift) := by
  induction l with
  | nil => intro col s; simp [procLineGo, scanLineGo]
  | cons b rest ih =>
    intro col s
    simp only [procLineGo, scanLineGo]
    by_cases hb : b ≤ 127
    · have hn : ¬ 127 < b := by omega
      rw [if_pos hb, if_neg hn]
      exact ih (col + 1) (stepByte s b)
    · have hp : 127 < b := by omega
      rw [if_neg hb, if_pos hp]
      by_cases hc : (s.inLine || s.inBlock) = true
      · rw [if_pos hc]
        exact List.Perm.cons _ (ih (col + 1) (stepByte s b))
      · rw [if_neg hc]
        exact List.Perm.trans List.perm_middle
          (List.Perm.cons _ (ih (col + 1) (stepByte s b)))

theorem procLines_records_perm (ls : List (List Nat)) :
    ∀ (n : Nat) (blk : Bool),
      ((procLines n blk ls).changes.map changePos
        ++ (procLines n blk ls).warnings.map warnPos).Perm
        ((scanLinesGo n ls).map hitPosShift) := by
  induction ls with
  | nil => intro n blk; simp [procLines, scanLinesGo]
  | cons l tl ih =>
    intro n blk
    simp only [procLines, procLine, scanLinesGo, List.map_append]
    exact List.Perm.trans (perm_shuffle _ _ _ _)
      (List.Perm.append
        (procLineGo_records_perm n l l 0 (mkLineState blk))
        (ih (n + 1) _))

/-- Witness for C8: a block comment spanning the line `(é` (no `|#`) stays
open there and across the two-line file `["(é", "x"]`; the append law and
the reset law at concrete inputs. -/
theorem block_state_only_across_lines_witness :
    (lineRun (mkLineState true) [40, 233]).inBlock = true
      ∧ (procLines 1 true [[40, 233], [120]]).blk = true
      ∧ procLines 1 false ([[59, 233]] ++ [[120]])
          = ⟨(procLines (1 + List.length [[59, 233]])
                (procLines 1 false [[59, 233]]).blk [[120]]).blk,
             (procLines 1 false [[59, 233]]).newLines
               ++ (procLines (1 + List.length [[59, 233]])
                    (procLines 1 false [[59, 233]]).blk [[120]]).newLines,
             (procLines 1 false [[59, 233]]).changes
               ++ (procLines (1 + List.length [[59, 233]])
                    (procLines 1 false [[59, 233]]).blk [[120]]).changes,
             (procLines 1 false [[59, 233]]).warnings
               ++ (procLines (1 + List.length [[59, 233]])
                    (procLines 1 false [[59, 233]]).blk [[120]]).warnings⟩
      ∧ ((mkLineState true).inLine = false
          ∧ (mkLineState true).inString = false
          ∧ (mkLineState true).escapeNext = false
          ∧ (mkLineState true).prevByte = 0
          ∧ (mkLineState true).inBlock = true) :=
  ⟨block_state_only_across_lines.1 [40, 233] (by decide),
   block_state_only_across_lines.2.1 [[40, 233], [120]] 1 (by decide),
   block_state_only_across_lines.2.2.1 [[59, 233]] [[120]] 1 false,
   block_state_only_across_lines.2.2.2 true⟩

set_option maxRecDepth 4000 in
/-- C9 counterexample: the Scanner's line context is NOT bounded by any
fixed limit — on a 101-byte line it reports a context of 101 code points,
beyond even the Converter's own 80+3 warning-context cap applied to the
same line. -/
theorem scan_context_unbounded_example :
    ((scan_file (List.replicate 100 97 ++ [233])).map
        (fun h => h.context.length)) = [101]
      ∧ (mkWarnContext (List.replicate 100 97 ++ [233])).length = 83 := by
  decide

/-- C9 amended: for every scanned file the Scanner emits exactly one hit
per byte above 127, and each hit carries the 1-based line number, the
0-based column within the line, the byte value, its ISO-8859-1-decoded
code point, and the whitespace-stripped full containing line as context —
with no fixed length bound on the context. -/
theorem scan_file_fields (data : List Nat) :
    scan_file data = scanLines data
      ∧ (scan_file data).length
          = (data.filter (fun b => 127 < b)).length := by
  refine ⟨scan_file_eq_scanLines data, ?_⟩
  rw [scan_file_eq_scanLines data]
  unfold scanLines
  rw [scanLinesGo_length (splitNl data) 1, joinNl_splitNl]

/-- C10: on every processed file, the converter's change and warning
records and the scanner's hits describe the same non-ASCII bytes, and the
converter's reported column is always the scanner's column plus one: the
records projected to (line, col, byte) are a permutation of the hits
projected to (line, col + 1, byte). -/
theorem converter_scanner_column_offset (data : List Nat)
    (h : (process_file data).skipped = none) :
    (((process_file data).changes.map changePos)
      ++ ((process_file data).warnings.map warnPos)).Perm
      ((scan_file data).map hitPosShift) := by
  rcases process_file_cases data with ⟨he, _⟩ | ⟨he, _⟩ | ⟨he, _, _⟩
  · rw [he] at h; simp at h
  · rw [he] at h; simp at h
  · rw [he]
    simp only
    rw [scan_file_eq_scanLines data]
    unfold scanLines
    exact procLines_records_perm (splitNl data) 1 false

/-- Witness for C10 at the file `;é`: the converter reports the byte at
column 2 (1-based), the scanner at column 1 (0-based). -/
theorem converter_scanner_column_offset_witness :
    (process_file [59, 233]).skipped = none
      ∧ (((process_file [59, 233]).changes.map changePos)
          ++ ((process_file [59, 233]).warnings.map warnPos)).Perm
          ((scan_file [59, 233]).map hitPosShift) :=
  ⟨by decide, converter_scanner_column_offset [59, 233] (by decide)⟩

end Pup
